import Mathlib

/-!
Verification of the pipeline builder (`src/index.ts`).

The repository is a small TypeScript library: a `PipelineBuilder` accumulates
"passes" (functions from an environment object to an object of new fields, or
objects exposing a `run(env)` method), and `build()` returns a runner that
threads an environment through the passes, shallow-merging each pass's result
(`env = {...env, ...(out || {})}`, later fields winning).  The runner executes
synchronously until some pass's result is detected as a thenable by
`isThenable` (lines 124-127); from that point it switches irrevocably to
promise-based execution (lines 136-157) and the runner's return value is a
promise.

Shallow embedding used here:

* A JS plain object is modelled by its enumerable own properties as an
  association list `Obj := List (Nat × Nat)`; JS spread `{...a, ...b}` is
  modelled by `a ++ b` together with a lookup that takes the LAST binding of a
  key (so `b`'s fields win), exactly the observable value semantics of spread.
* A pass invocation either throws synchronously (`Except.error`) or returns an
  `Outcome`: `imm o` for a non-thenable result (`o = none` models `void`,
  `null`, `undefined` or any non-object result, all of which merge nothing
  because of `out || {}` and because spreading a primitive adds no fields);
  `thenable d` for a result classified as a thenable by `isThenable`, where
  `d` is the eventual settlement of that thenable (fulfilled with a mapping or
  void, or rejected).  There is no concurrency in the library, so a thenable
  is faithfully represented by its settlement.
* Errors: `Err.invalidPass` is the `TypeError` thrown by the `addPass`
  wrapper (the spec's `InvalidPassError`); `Err.user n` is an arbitrary
  failure thrown by user pass code or carried by a rejected thenable.
* The duck-typed runtime check `isThenable` itself is modelled separately over
  a small universe `JSVal` of JavaScript values, mirroring
  `!!v && (typeof v === "object" || typeof v === "function") &&
  typeof v.then === "function"` literally.
* Object identity (needed for the frame claims: the input object is never
  mutated and environments are never shared between invocations) is modelled
  by a heap-instrumented copy of the same runner, `runPipelineH`, in which
  every JS spread allocates a fresh object, as the source code does: the code
  only ever rebinds the local `env` to a freshly spread object and never
  assigns to a property of an existing object.
-/

/-- A JS plain object, as its list of own enumerable properties in insertion
order; a later binding of a key shadows an earlier one, as in
`{...a, ...b}`. -/
abbrev Obj := List (Nat × Nat)

/-- Property lookup: the value of the LATEST binding of `k`, so that for
`a ++ b` (the model of `{...a, ...b}`) fields of `b` win, matching JS
spread. -/
def Obj.lookupLast (o : Obj) (k : Nat) : Option Nat :=
  (o.reverse.find? (fun kv => kv.1 == k)).map (fun kv => kv.2)

/-- Shallow merge `{...a, ...b}` (line 159 / 142 / 149-152 of the source):
all fields of `a`, overridden by the fields of `b`. -/
def Obj.merge (a b : Obj) : Obj := a ++ b

/-- Errors a run can produce: the `TypeError` thrown by the `addPass` wrapper
when the registered value is neither callable nor an object with a callable
`run` (the spec's `InvalidPassError`), or an arbitrary user failure (a pass
throwing, or a thenable rejecting). -/
inductive Err where
  | invalidPass : Err
  | user : Nat → Err
deriving DecidableEq, Repr

/-- The settlement of a thenable returned by a pass: fulfilled with a mapping
(or with void/a non-object value, `none`, which merges nothing because of
`resolvedOut || {}`), or rejected with an error. -/
abbrev Settled := Except Err (Option Obj)

/-- What a pass invocation returns when it does not throw: an immediate
(non-thenable) result, or a thenable with a given settlement.  `imm none`
models `void`/`null`/`undefined`/primitive results, which merge nothing
(`out || {}`, and spreading a primitive adds no fields). -/
inductive Outcome where
  | imm : Option Obj → Outcome
  | thenable : Settled → Outcome

/-- A stored (normalized) pass, as the wrapper produced by `addPass`:
given the current environment it throws or returns an `Outcome`. -/
abbrev NPass := Obj → Except Err Outcome

/-- Merge of a pass result into the environment:
`{...env, ...(out || {})}` (lines 142, 150-151, 159). -/
def mergeOut (env : Obj) (o : Option Obj) : Obj := env.merge (o.getD [])

/-- The promise-based continuation (lines 141-156): after the first thenable
has been detected, the current thenable's settlement has been merged and the
remaining passes are chained with
`p.then(_env => Promise.resolve(next(_env)).then(r => ({..._env, ...(r || {})})))`.
A pass that throws inside the chain, or whose thenable rejects, rejects the
whole promise and no later pass runs.  Returns the settlement of the promise
the runner hands back. -/
def asyncRun (env : Obj) (ps : List NPass) : Except Err Obj :=
  match ps with
  | [] => .ok env
  | p :: rest =>
    match p env with
    | .error e => .error e
    | .ok (.imm o) => asyncRun (mergeOut env o) rest
    | .ok (.thenable (.error e)) => .error e
    | .ok (.thenable (.ok o)) => asyncRun (mergeOut env o) rest

/-- The value a single runner invocation produces (lines 129-164): a thrown
error (`Except.error`, possible only while still synchronous), the final
environment itself (`Sum.inl`, the fully synchronous path, line 163), or a
promise (`Sum.inr`) carrying its settlement (the async path entered at the
first thenable, line 136). -/
abbrev RunResult := Except Err (Obj ⊕ Except Err Obj)

/-- The synchronous loop of the runner (lines 132-160): run passes in order,
merging immediate results; on the first thenable result switch to
`asyncRun` over the remaining passes and return a promise; a synchronous
throw before any switch propagates to the caller. -/
def syncRun (env : Obj) (ps : List NPass) : RunResult :=
  match ps with
  | [] => .ok (.inl env)
  | p :: rest =>
    match p env with
    | .error e => .error e
    | .ok (.imm o) => syncRun (mergeOut env o) rest
    | .ok (.thenable (.error e)) => .ok (.inr (.error e))
    | .ok (.thenable (.ok o)) => .ok (.inr (asyncRun (mergeOut env o) rest))

/-- One invocation of the runner returned by `build()` (line 129):
`let env = {...(input || {})}` then the synchronous loop.  `none` models
calling the runner with no argument (or a nullish one). -/
def runPipeline (ps : List NPass) (input : Option Obj) : RunResult :=
  syncRun (input.getD []) ps

/-- A value handed to `addPass`, as the wrapper (lines 75-89) observes it:
`call` is present exactly when `typeof fn === "function"` (the function
itself), `run` is present exactly when the value is truthy and has a callable
`run` property.  A callable value may also carry a `run` property. -/
structure RegValue where
  call : Option NPass
  run : Option NPass

/-- The wrapper `addPass` stores (lines 75-89): invoke the value directly if
it is callable; otherwise invoke its `run` method; otherwise throw the
`TypeError` (the spec's `InvalidPassError`).  The check happens each time the
wrapper is invoked, i.e. when the pass executes, never at registration. -/
def wrapper (v : RegValue) : NPass :=
  fun env =>
    match v.call with
    | some f => f env
    | none =>
      match v.run with
      | some r => r env
      | none => .error .invalidPass

/-- The builder's only runtime state: the array `passes` of stored
wrappers. -/
structure PipelineBuilder where
  passes : List NPass

/-- `pipeline()` / `createPipeline()`: a fresh builder with no passes. -/
def pipeline : PipelineBuilder := ⟨[]⟩

/-- `addPass` (lines 58-99): push the wrapper; no validation of the value
happens here. -/
def PipelineBuilder.addPass (b : PipelineBuilder) (v : RegValue) : PipelineBuilder :=
  ⟨b.passes ++ [wrapper v]⟩

/-- `build()` (lines 120-165): snapshot `this.passes.slice()` and return the
runner over that snapshot. -/
def PipelineBuilder.build (b : PipelineBuilder) : Option Obj → RunResult :=
  runPipeline b.passes

/-! ### Convenient pass shapes used to state the claims -/

/-- A pass returning an immediate (non-thenable) result. -/
def immPass (f : Obj → Option Obj) : NPass := fun env => .ok (.imm (f env))

/-- A pass returning a thenable that fulfills. -/
def deferPass (f : Obj → Option Obj) : NPass := fun env => .ok (.thenable (.ok (f env)))

/-- A pass that throws synchronously. -/
def throwPass (e : Err) : NPass := fun _ => .error e

/-- A pass returning a thenable that rejects. -/
def rejectPass (e : Err) : NPass := fun _ => .ok (.thenable (.error e))

/-- A succeeding pass: immediate or deferred, described by the mapping it
contributes. -/
inductive SPass where
  | imm : (Obj → Option Obj) → SPass
  | defer : (Obj → Option Obj) → SPass

/-- The stored pass an `SPass` stands for. -/
def SPass.toNPass : SPass → NPass
  | .imm f => immPass f
  | .defer f => deferPass f

/-- The mapping an `SPass` contributes. -/
def SPass.fn : SPass → (Obj → Option Obj)
  | .imm f => f
  | .defer f => f

/-- The environment obtained by overlaying, in order, each function's result
on top of `env`: the specification's "initial input progressively overlaid in
registration order". -/
def overlayAll (fs : List (Obj → Option Obj)) (env : Obj) : Obj :=
  fs.foldl (fun e f => mergeOut e (f e)) env

/-! ### Basic lemmas about the runner -/

theorem syncRun_immPass (f : Obj → Option Obj) (fs : List NPass) (env : Obj) :
    syncRun env (immPass f :: fs) = syncRun (mergeOut env (f env)) fs := rfl

theorem syncRun_imm_front (fs : List (Obj → Option Obj)) (rest : List NPass) (env : Obj) :
    syncRun env (fs.map immPass ++ rest) = syncRun (overlayAll fs env) rest := by
  induction fs generalizing env with
  | nil => rfl
  | cons f fs ih =>
    simp only [List.map_cons, List.cons_append, syncRun_immPass, overlayAll, List.foldl_cons]
    exact ih (mergeOut env (f env))

theorem asyncRun_spass (ss : List SPass) (rest : List NPass) (env : Obj) :
    asyncRun env (ss.map SPass.toNPass ++ rest)
      = asyncRun (overlayAll (ss.map SPass.fn) env) rest := by
  induction ss generalizing env with
  | nil => rfl
  | cons s ss ih =>
    cases s with
    | imm f =>
      simp only [List.map_cons, List.cons_append, SPass.toNPass, SPass.fn, overlayAll,
        List.foldl_cons]
      exact ih (mergeOut env (f env))
    | defer f =>
      simp only [List.map_cons, List.cons_append, SPass.toNPass, SPass.fn, overlayAll,
        List.foldl_cons]
      exact ih (mergeOut env (f env))

theorem asyncRun_spass_nil (ss : List SPass) (env : Obj) :
    asyncRun env (ss.map SPass.toNPass) = .ok (overlayAll (ss.map SPass.fn) env) := by
  have h := asyncRun_spass ss [] env
  simpa using h

theorem lookupLast_append (a b : Obj) (k : Nat) :
    Obj.lookupLast (a ++ b) k = (Obj.lookupLast b k).orElse (fun _ => Obj.lookupLast a k) := by
  unfold Obj.lookupLast
  rw [List.reverse_append, List.find?_append]
  cases b.reverse.find? (fun kv => kv.1 == k) <;> rfl

/-! ### The duck-typed thenable check (`isThenable`, lines 124-127)

A small universe of JavaScript values sufficient to state the check
`!!v && (typeof v === "object" || typeof v === "function") &&
typeof v.then === "function"` literally.  `typeof null` is `"object"` and
property access is modelled on objects and functions (the only values the
check ever reads a property from, since `!!v` rules the others out before the
`&&` reaches `v.then`). -/

inductive JSVal where
  | undefinedV : JSVal
  | null : JSVal
  | boolean : Bool → JSVal
  | number : Int → JSVal
  | str : String → JSVal
  | object : List (String × JSVal) → JSVal
  | func : List (String × JSVal) → JSVal

/-- The `typeof` tags the check compares against. -/
inductive JSType where
  | undefinedT | objectT | booleanT | numberT | stringT | functionT
deriving DecidableEq

/-- JS `typeof` (note `typeof null === "object"`). -/
def JSVal.typeOf : JSVal → JSType
  | .undefinedV => .undefinedT
  | .null => .objectT
  | .boolean _ => .booleanT
  | .number _ => .numberT
  | .str _ => .stringT
  | .object _ => .objectT
  | .func _ => .functionT

/-- JS truthiness (`!!v`). -/
def JSVal.truthy : JSVal → Bool
  | .undefinedV => false
  | .null => false
  | .boolean b => b
  | .number n => decide (n ≠ 0)
  | .str s => decide (s ≠ "")
  | .object _ => true
  | .func _ => true

/-- Property read `v[k]` on objects and functions; `undefined` when the
property is absent or the value is a primitive. -/
def JSVal.getProp : JSVal → String → JSVal
  | .object props, k => ((props.find? (fun p => p.1 == k)).map (fun p => p.2)).getD .undefinedV
  | .func props, k => ((props.find? (fun p => p.1 == k)).map (fun p => p.2)).getD .undefinedV
  | _, _ => .undefinedV

/-- `isThenable` (lines 124-127):
`!!v && (typeof v === "object" || typeof v === "function") &&
typeof v.then === "function"`. -/
def isThenable (v : JSVal) : Bool :=
  v.truthy
    && (decide (v.typeOf = JSType.objectT) || decide (v.typeOf = JSType.functionT))
    && decide ((v.getProp "then").typeOf = JSType.functionT)

theorem typeOf_functionT_iff (w : JSVal) :
    w.typeOf = JSType.functionT ↔ ∃ qs, w = JSVal.func qs := by
  cases w <;> simp [JSVal.typeOf]

/-! ### Pass-store model of the builder's mutable array (for claim C7)

`this.passes` is a mutable array; `addPass` pushes into it in place, and
`build()` copies it (`this.passes.slice()`, line 121) into the runner's
closure.  The store below gives the array an address so in-place mutation
after a `build()` is expressible: `addPassAt` updates the array at address
`i`, `buildAt` captures the array's current VALUE (the slice) and runs
that. -/

abbrev PassStore := List (List NPass)

/-- `builder.addPass(v)`: push `wrapper v` onto the array at address `i`. -/
def addPassAt (s : PassStore) (i : Nat) (v : RegValue) : PassStore :=
  s.set i ((s.getD i []) ++ [wrapper v])

/-- A sequence of `addPass` calls on the builder at address `i`. -/
def addPassesAt (s : PassStore) (i : Nat) (vs : List RegValue) : PassStore :=
  vs.foldl (fun st v => addPassAt st i v) s

/-- `builder.build()`: snapshot (`slice`) the array's current value at
address `i` and return the runner over that value. -/
def buildAt (s : PassStore) (i : Nat) : Option Obj → RunResult :=
  runPipeline (s.getD i [])

/-- A pass returning a total immediate mapping (never void). -/
def totalPass (f : Obj → Obj) : NPass := fun env => .ok (.imm (some (f env)))

/-- Overlay of total mappings in order. -/
def overlayMaps (fs : List (Obj → Obj)) (env : Obj) : Obj :=
  fs.foldl (fun e f => e.merge (f e)) env

theorem syncRun_totalPass (fs : List (Obj → Obj)) (env : Obj) :
    syncRun env (fs.map totalPass) = .ok (.inl (overlayMaps fs env)) := by
  induction fs generalizing env with
  | nil => rfl
  | cons f fs ih =>
    simpa [totalPass, overlayMaps, mergeOut, syncRun] using ih (env.merge (f env))

theorem addPassAt_length (s : PassStore) (i : Nat) (v : RegValue) :
    (addPassAt s i v).length = s.length := by
  simp [addPassAt]

theorem addPassAt_getD (s : PassStore) (i : Nat) (v : RegValue) (h : i < s.length) :
    (addPassAt s i v).getD i [] = s.getD i [] ++ [wrapper v] := by
  simp [addPassAt, List.getD, List.getElem?_set_self, h]

theorem addPassesAt_getD (s : PassStore) (i : Nat) (vs : List RegValue) (h : i < s.length) :
    (addPassesAt s i vs).getD i [] = s.getD i [] ++ vs.map wrapper := by
  induction vs generalizing s with
  | nil => simp [addPassesAt]
  | cons v vs ih =>
    have h' : i < (addPassAt s i v).length := by rwa [addPassAt_length]
    calc (addPassesAt s i (v :: vs)).getD i []
        = (addPassesAt (addPassAt s i v) i vs).getD i [] := rfl
      _ = (addPassAt s i v).getD i [] ++ vs.map wrapper := ih _ h'
      _ = s.getD i [] ++ [wrapper v] ++ vs.map wrapper := by rw [addPassAt_getD s i v h]
      _ = s.getD i [] ++ (v :: vs).map wrapper := by simp

/-! ### The claims -/

/-- C1.  For every initial input and every sequence of passes whose results
are all immediate mappings, the environment returned by the runner equals the
initial input shallow-overlaid, in registration order, by each pass's result
mapping; on a key collision the latest binding wins, so fields from a later
pass overwrite same-named fields from the input or an earlier pass. -/
theorem pipeline_C1_merge_order :
    (∀ (fs : List (Obj → Obj)) (input : Option Obj),
      runPipeline (fs.map totalPass) input
        = .ok (.inl (overlayMaps fs (input.getD []))))
    ∧ (∀ (a b : Obj) (k : Nat),
      Obj.lookupLast (Obj.merge a b) k
        = (Obj.lookupLast b k).orElse (fun _ => Obj.lookupLast a k)) :=
  ⟨fun fs input => syncRun_totalPass fs (input.getD []),
   fun a b k => lookupLast_append a b k⟩

/-- C2.  If the passes before position k are immediate, pass k returns a
deferred (thenable) value, and the passes after k are any mix of immediate
and deferred succeeding passes, then the runner returns a deferred handle
(`Sum.inr`), and that handle resolves to the environment merged through all
passes 0..end in registration order. -/
theorem pipeline_C2_mode_switch
    (pre : List (Obj → Option Obj)) (g : Obj → Option Obj) (rest : List SPass)
    (input : Option Obj) :
    runPipeline (pre.map immPass ++ deferPass g :: rest.map SPass.toNPass) input
      = .ok (.inr (.ok (overlayAll (pre ++ g :: rest.map SPass.fn) (input.getD [])))) := by
  unfold runPipeline
  rw [syncRun_imm_front]
  show syncRun (overlayAll pre (input.getD [])) (deferPass g :: rest.map SPass.toNPass) = _
  simp only [syncRun, deferPass, asyncRun_spass_nil, overlayAll, List.foldl_append,
    List.foldl_cons]

/-- C3.  If no pass returns a deferred value during the invocation (every
pass result is immediate — a mapping or void), the runner returns the final
environment itself (`Sum.inl`), a plain value rather than a deferred
handle. -/
theorem pipeline_C3_sync_path (fs : List (Obj → Option Obj)) (input : Option Obj) :
    runPipeline (fs.map immPass) input = .ok (.inl (overlayAll fs (input.getD []))) := by
  unfold runPipeline
  simpa using syncRun_imm_front fs [] (input.getD [])

/-- C4.  A value is classified as deferred (`isThenable`) exactly when it is
an object or a callable (function) value — both non-null and truthy in JS —
whose property named "then" is callable; every other value, including `null`,
`undefined` and primitives, is immediate.  In particular a plain user object
that merely happens to carry a callable "then" property is classified as
deferred even though it is not a real promise, while a string such as
`"then"` is not. -/
theorem pipeline_C4_thenable_detection :
    (∀ v : JSVal, isThenable v = true ↔
      (((∃ ps, v = JSVal.object ps) ∨ (∃ ps, v = JSVal.func ps))
        ∧ ∃ qs, v.getProp "then" = JSVal.func qs))
    ∧ isThenable (JSVal.object [("then", JSVal.func [])]) = true
    ∧ isThenable JSVal.null = false
    ∧ isThenable JSVal.undefinedV = false
    ∧ isThenable (JSVal.number 5) = false
    ∧ isThenable (JSVal.str "then") = false := by
  refine ⟨fun v => ?_, by decide, rfl, rfl, rfl, by decide⟩
  cases v with
  | undefinedV => simp [isThenable, JSVal.truthy]
  | null => simp [isThenable, JSVal.truthy]
  | boolean b => simp [isThenable, JSVal.truthy, JSVal.typeOf]
  | number n => simp [isThenable, JSVal.truthy, JSVal.typeOf]
  | str s => simp [isThenable, JSVal.truthy, JSVal.typeOf]
  | object props =>
    have h1 : isThenable (JSVal.object props) = true
        ↔ ∃ qs, (JSVal.object props).getProp "then" = JSVal.func qs := by
      rw [show isThenable (JSVal.object props)
            = decide (((JSVal.object props).getProp "then").typeOf = JSType.functionT) from rfl,
        decide_eq_true_eq]
      exact typeOf_functionT_iff _
    simp [h1]
  | func props =>
    have h1 : isThenable (JSVal.func props) = true
        ↔ ∃ qs, (JSVal.func props).getProp "then" = JSVal.func qs := by
      rw [show isThenable (JSVal.func props)
            = decide (((JSVal.func props).getProp "then").typeOf = JSType.functionT) from rfl,
        decide_eq_true_eq]
      exact typeOf_functionT_iff _
    simp [h1]

/-- C5.  A pass that throws before any deferred switch makes the runner
invocation itself raise (an `Except.error`, not a result); a failure after
the switch — the first thenable itself rejecting, a later pass throwing, or a
later thenable rejecting — makes the returned deferred handle reject
(`Sum.inr (.error e)`).  In every case the result is the same for every list
of passes `post` placed after the failure point (those passes are never
consulted) and no environment is returned. -/
theorem pipeline_C5_failure_propagation
    (pre : List (Obj → Option Obj)) (g : Obj → Option Obj) (mid : List SPass)
    (e : Err) (post : List NPass) (input : Option Obj) :
    runPipeline (pre.map immPass ++ throwPass e :: post) input = .error e
    ∧ runPipeline (pre.map immPass ++ rejectPass e :: post) input
        = .ok (.inr (.error e))
    ∧ runPipeline (pre.map immPass
          ++ deferPass g :: (mid.map SPass.toNPass ++ throwPass e :: post)) input
        = .ok (.inr (.error e))
    ∧ runPipeline (pre.map immPass
          ++ deferPass g :: (mid.map SPass.toNPass ++ rejectPass e :: post)) input
        = .ok (.inr (.error e)) := by
  refine ⟨?_, ?_, ?_, ?_⟩ <;>
    · unfold runPipeline
      rw [syncRun_imm_front]
      simp [syncRun, deferPass, throwPass, rejectPass, asyncRun_spass, asyncRun]

/-- C6.  Registering any value — in particular one that is neither callable
nor an object with a callable `run` — always succeeds and merely appends the
wrapper to the builder's array; no error value exists at registration or
finalize time.  Executing the pipeline produces the `InvalidPassError`
(`TypeError`) exactly when that pass is reached: as a synchronous raise if it
is reached before any deferred switch, as a rejection of the deferred handle
if it is reached after one; in both cases the passes after it are never
consulted. -/
theorem pipeline_C6_invalid_pass
    (b : PipelineBuilder) (v : RegValue) (pre : List (Obj → Option Obj))
    (g : Obj → Option Obj) (mid : List SPass) (post : List NPass)
    (input : Option Obj) :
    (b.addPass v).passes = b.passes ++ [wrapper v]
    ∧ runPipeline (pre.map immPass ++ wrapper ⟨none, none⟩ :: post) input
        = .error .invalidPass
    ∧ runPipeline (pre.map immPass
          ++ deferPass g :: (mid.map SPass.toNPass ++ wrapper ⟨none, none⟩ :: post)) input
        = .ok (.inr (.error .invalidPass)) := by
  refine ⟨rfl, ?_, ?_⟩ <;>
    · unfold runPipeline
      rw [syncRun_imm_front]
      simp [syncRun, deferPass, wrapper, asyncRun_spass, asyncRun]

/-- C7.  `build()` snapshots the builder's pass array (`this.passes.slice()`):
the runner obtained from a finalize runs exactly the array's value at that
moment; registering further passes on the same builder afterwards only
appends to the stored array, and a later finalize captures its own copy — the
earlier runner still runs the earlier snapshot. -/
theorem pipeline_C7_finalize_snapshot
    (s : PassStore) (i : Nat) (vs : List RegValue) (input : Option Obj)
    (h : i < s.length) :
    buildAt s i input = runPipeline (s.getD i []) input
    ∧ (addPassesAt s i vs).getD i [] = s.getD i [] ++ vs.map wrapper
    ∧ buildAt (addPassesAt s i vs) i input
        = runPipeline (s.getD i [] ++ vs.map wrapper) input :=
  ⟨rfl, addPassesAt_getD s i vs h, by rw [buildAt, addPassesAt_getD s i vs h]⟩

/-- Witness for C7 at a concrete store: one builder (address 0), one later
registration of an invalid value. -/
theorem pipeline_C7_witness :
    buildAt [[]] 0 none = runPipeline (([[]] : PassStore).getD 0 []) none
    ∧ (addPassesAt [[]] 0 [⟨none, none⟩]).getD 0 []
        = ([[]] : PassStore).getD 0 [] ++ ([⟨none, none⟩] : List RegValue).map wrapper
    ∧ buildAt (addPassesAt [[]] 0 [⟨none, none⟩]) 0 none
        = runPipeline (([[]] : PassStore).getD 0 []
            ++ ([⟨none, none⟩] : List RegValue).map wrapper) none :=
  pipeline_C7_finalize_snapshot [[]] 0 [⟨none, none⟩] none (by decide)

/-- C9.  A pass registered as the capability object `{run: f}` and the same
pass registered as the plain callable `f` are normalized to the same wrapper,
so any pipeline containing one produces exactly the same result — in
particular the same final environment — as the pipeline containing the
other, for every input. -/
theorem pipeline_C9_object_equals_callable
    (f : NPass) (pre post : List NPass) (input : Option Obj) :
    runPipeline (pre ++ wrapper ⟨none, some f⟩ :: post) input
      = runPipeline (pre ++ wrapper ⟨some f, none⟩ :: post) input := rfl

/-- C10.  When the registered value is itself callable, the wrapper invokes
it directly, whatever `run` property it may also carry (the result is
independent of `r`); the `run` method is consulted only for non-callable
values. -/
theorem pipeline_C10_callable_priority
    (f r : NPass) (o : Option NPass) :
    wrapper ⟨some f, o⟩ = f ∧ wrapper ⟨none, some r⟩ = r :=
  ⟨rfl, rfl⟩

/-! ### Heap-instrumented runner (for claim C8)

The source never assigns to a property of an existing object: the runner only
rebinds its local `env` to freshly spread objects (`{...(input || {})}` at
line 130, `{...env, ...}` at lines 142, 149-152, 159).  To make object
identity observable, the same runner is restated over a heap of objects where
every spread allocates; environments are addresses into the heap. -/

/-- A heap of JS objects; an address is an index into `objs`. -/
structure ObjHeap where
  objs : List Obj

/-- The object stored at address `a`. -/
def ObjHeap.read (h : ObjHeap) (a : Nat) : Obj := h.objs.getD a []

/-- Allocate a fresh object holding `o` (what every JS spread does): the new
heap and the fresh address. -/
def ObjHeap.alloc (h : ObjHeap) (o : Obj) : ObjHeap × Nat :=
  (⟨h.objs ++ [o]⟩, h.objs.length)

/-- Heap-instrumented `asyncRun` (lines 141-156): each merge allocates the
fresh object `{..._env, ...(r || {})}` and continues at its address. -/
def asyncRunH (h : ObjHeap) (a : Nat) (ps : List NPass) : ObjHeap × Except Err Nat :=
  match ps with
  | [] => (h, .ok a)
  | p :: rest =>
    match p (h.read a) with
    | .error e => (h, .error e)
    | .ok (.imm o) =>
      asyncRunH (h.alloc (mergeOut (h.read a) o)).1 (h.alloc (mergeOut (h.read a) o)).2 rest
    | .ok (.thenable (.error e)) => (h, .error e)
    | .ok (.thenable (.ok o)) =>
      asyncRunH (h.alloc (mergeOut (h.read a) o)).1 (h.alloc (mergeOut (h.read a) o)).2 rest

/-- Heap-instrumented `syncRun` (lines 132-160). -/
def syncRunH (h : ObjHeap) (a : Nat) (ps : List NPass) :
    ObjHeap × Except Err (Nat ⊕ Except Err Nat) :=
  match ps with
  | [] => (h, .ok (.inl a))
  | p :: rest =>
    match p (h.read a) with
    | .error e => (h, .error e)
    | .ok (.imm o) =>
      syncRunH (h.alloc (mergeOut (h.read a) o)).1 (h.alloc (mergeOut (h.read a) o)).2 rest
    | .ok (.thenable (.error e)) => (h, .ok (.inr (.error e)))
    | .ok (.thenable (.ok o)) =>
      ((asyncRunH (h.alloc (mergeOut (h.read a) o)).1 (h.alloc (mergeOut (h.read a) o)).2 rest).1,
        .ok (.inr (asyncRunH (h.alloc (mergeOut (h.read a) o)).1
          (h.alloc (mergeOut (h.read a) o)).2 rest).2))

/-- Heap-instrumented runner invocation (line 129): allocate the fresh
shallow copy `{...(input || {})}` of the caller's object (or of `{}` when no
argument is supplied) and run the synchronous loop at its address. -/
def runPipelineH (h : ObjHeap) (ia : Option Nat) (ps : List NPass) :
    ObjHeap × Except Err (Nat ⊕ Except Err Nat) :=
  syncRunH (h.alloc ((ia.map h.read).getD [])).1 (h.alloc ((ia.map h.read).getD [])).2 ps

/-- The address of the environment a run hands back, when it hands one
back. -/
def resAddr? : Except Err (Nat ⊕ Except Err Nat) → Option Nat
  | .ok (.inl a) => some a
  | .ok (.inr (.ok a)) => some a
  | _ => none

theorem ObjHeap.read_alloc (h : ObjHeap) (o : Obj) :
    (h.alloc o).1.read (h.alloc o).2 = o := by
  simp [ObjHeap.alloc, ObjHeap.read, List.getD]

theorem ObjHeap.read_extend (h : ObjHeap) (t : List Obj) (a : Nat)
    (ha : a < h.objs.length) :
    ObjHeap.read ⟨h.objs ++ t⟩ a = h.read a := by
  simp [ObjHeap.read, List.getD, List.getElem?_append, ha]

theorem asyncRunH_objs (ps : List NPass) (h : ObjHeap) (a : Nat) :
    ∃ t, (asyncRunH h a ps).1.objs = h.objs ++ t := by
  induction ps generalizing h a with
  | nil => exact ⟨[], by simp [asyncRunH]⟩
  | cons p rest ih =>
    cases hp : p (h.read a) with
    | error e => exact ⟨[], by simp [asyncRunH, hp]⟩
    | ok out =>
      cases out with
      | imm o =>
        obtain ⟨t, ht⟩ := ih ⟨h.objs ++ [mergeOut (h.read a) o]⟩ h.objs.length
        exact ⟨[mergeOut (h.read a) o] ++ t, by simp [asyncRunH, hp, ObjHeap.alloc, ht]⟩
      | thenable d =>
        cases d with
        | error e => exact ⟨[], by simp [asyncRunH, hp]⟩
        | ok o =>
          obtain ⟨t, ht⟩ := ih ⟨h.objs ++ [mergeOut (h.read a) o]⟩ h.objs.length
          exact ⟨[mergeOut (h.read a) o] ++ t, by simp [asyncRunH, hp, ObjHeap.alloc, ht]⟩

theorem syncRunH_objs (ps : List NPass) (h : ObjHeap) (a : Nat) :
    ∃ t, (syncRunH h a ps).1.objs = h.objs ++ t := by
  induction ps generalizing h a with
  | nil => exact ⟨[], by simp [syncRunH]⟩
  | cons p rest ih =>
    cases hp : p (h.read a) with
    | error e => exact ⟨[], by simp [syncRunH, hp]⟩
    | ok out =>
      cases out with
      | imm o =>
        obtain ⟨t, ht⟩ := ih ⟨h.objs ++ [mergeOut (h.read a) o]⟩ h.objs.length
        exact ⟨[mergeOut (h.read a) o] ++ t, by simp [syncRunH, hp, ObjHeap.alloc, ht]⟩
      | thenable d =>
        cases d with
        | error e => exact ⟨[], by simp [syncRunH, hp]⟩
        | ok o =>
          obtain ⟨t, ht⟩ := asyncRunH_objs rest ⟨h.objs ++ [mergeOut (h.read a) o]⟩ h.objs.length
          exact ⟨[mergeOut (h.read a) o] ++ t, by simp [syncRunH, hp, ObjHeap.alloc, ht]⟩

theorem asyncRunH_addrBound (ps : List NPass) :
    ∀ (h : ObjHeap) (a a' : Nat), a < h.objs.length →
      (asyncRunH h a ps).2 = .ok a' →
      (a = a' ∨ h.objs.length ≤ a') ∧ a' < (asyncRunH h a ps).1.objs.length := by
  induction ps with
  | nil =>
    intro h a a' ha hr
    simp only [asyncRunH, Except.ok.injEq] at hr
    exact ⟨Or.inl hr, hr ▸ ha⟩
  | cons p rest ih =>
    intro h a a' ha hr
    cases hp : p (h.read a) with
    | error e => simp [asyncRunH, hp] at hr
    | ok out =>
      cases out with
      | imm o =>
        simp only [asyncRunH, hp, ObjHeap.alloc] at hr ⊢
        have ha' : h.objs.length < (h.objs ++ [mergeOut (h.read a) o]).length := by simp
        obtain ⟨h1, h2⟩ := ih ⟨h.objs ++ [mergeOut (h.read a) o]⟩ h.objs.length a' ha' hr
        refine ⟨Or.inr ?_, h2⟩
        rcases h1 with h1 | h1
        · exact h1.le
        · exact le_trans (by simp) h1
      | thenable d =>
        cases d with
        | error e => simp [asyncRunH, hp] at hr
        | ok o =>
          simp only [asyncRunH, hp, ObjHeap.alloc] at hr ⊢
          have ha' : h.objs.length < (h.objs ++ [mergeOut (h.read a) o]).length := by simp
          obtain ⟨h1, h2⟩ := ih ⟨h.objs ++ [mergeOut (h.read a) o]⟩ h.objs.length a' ha' hr
          refine ⟨Or.inr ?_, h2⟩
          rcases h1 with h1 | h1
          · exact h1.le
          · exact le_trans (by simp) h1

theorem syncRunH_addrBound (ps : List NPass) :
    ∀ (h : ObjHeap) (a a' : Nat), a < h.objs.length →
      resAddr? (syncRunH h a ps).2 = some a' →
      (a = a' ∨ h.objs.length ≤ a') ∧ a' < (syncRunH h a ps).1.objs.length := by
  induction ps with
  | nil =>
    intro h a a' ha hr
    simp only [syncRunH, resAddr?, Option.some.injEq] at hr
    exact ⟨Or.inl hr, hr ▸ ha⟩
  | cons p rest ih =>
    intro h a a' ha hr
    cases hp : p (h.read a) with
    | error e => simp [syncRunH, hp, resAddr?] at hr
    | ok out =>
      cases out with
      | imm o =>
        simp only [syncRunH, hp, ObjHeap.alloc] at hr ⊢
        have ha' : h.objs.length < (h.objs ++ [mergeOut (h.read a) o]).length := by simp
        obtain ⟨h1, h2⟩ := ih ⟨h.objs ++ [mergeOut (h.read a) o]⟩ h.objs.length a' ha' hr
        refine ⟨Or.inr ?_, h2⟩
        rcases h1 with h1 | h1
        · exact h1.le
        · exact le_trans (by simp) h1
      | thenable d =>
        cases d with
        | error e => simp [syncRunH, hp, resAddr?] at hr
        | ok o =>
          simp only [syncRunH, hp, ObjHeap.alloc] at hr ⊢
          have ha' : h.objs.length < (h.objs ++ [mergeOut (h.read a) o]).length := by simp
          cases hq : (asyncRunH ⟨h.objs ++ [mergeOut (h.read a) o]⟩ h.objs.length rest).2 with
          | error e => rw [hq] at hr; simp [resAddr?] at hr
          | ok a'' =>
            rw [hq] at hr
            simp only [resAddr?, Option.some.injEq] at hr
            subst hr
            obtain ⟨h1, h2⟩ := asyncRunH_addrBound rest ⟨h.objs ++ [mergeOut (h.read a) o]⟩
              h.objs.length a'' ha' hq
            refine ⟨Or.inr ?_, h2⟩
            rcases h1 with h1 | h1
            · exact h1.le
            · exact le_trans (by simp) h1

theorem ObjHeap.read_congr (h1 h2 : ObjHeap) (e : h1.objs = h2.objs) (a : Nat) :
    h1.read a = h2.read a := by
  rw [ObjHeap.read, ObjHeap.read, e]

/-- C8.  Each runner invocation allocates a fresh object for its environment,
initialized as a shallow copy of the caller's input value (or of `{}` when no
argument is supplied): (1) the invocation literally starts by allocating that
copy at a fresh address; (2) every pre-existing object — in particular the
caller's input object — holds exactly the same value after the run; (3) the
environment object a run hands back is at a fresh address, distinct from
every object that existed before the invocation (so the input object is
never returned, let alone mutated); (4) two successive invocations of the
same runner never hand back the same environment object. -/
theorem pipeline_C8_fresh_copy
    (h : ObjHeap) (ia ia₂ : Option Nat) (ps ps₂ : List NPass) :
    runPipelineH h ia ps
      = syncRunH ⟨h.objs ++ [(ia.map h.read).getD []]⟩ h.objs.length ps
    ∧ (∀ a, a < h.objs.length → (runPipelineH h ia ps).1.read a = h.read a)
    ∧ (∀ a', resAddr? (runPipelineH h ia ps).2 = some a' → h.objs.length ≤ a')
    ∧ (∀ a₁ a₂, resAddr? (runPipelineH h ia ps).2 = some a₁ →
        resAddr? (runPipelineH (runPipelineH h ia ps).1 ia₂ ps₂).2 = some a₂ →
        a₁ ≠ a₂) := by
  refine ⟨rfl, ?_, ?_, ?_⟩
  · intro a ha
    obtain ⟨t, ht⟩ := syncRunH_objs ps ⟨h.objs ++ [(ia.map h.read).getD []]⟩ h.objs.length
    have e : (runPipelineH h ia ps).1.objs
        = h.objs ++ ([(ia.map h.read).getD []] ++ t) := by
      rw [show (runPipelineH h ia ps).1
            = (syncRunH ⟨h.objs ++ [(ia.map h.read).getD []]⟩ h.objs.length ps).1 from rfl,
        ht]
      simp
    rw [ObjHeap.read_congr _ ⟨h.objs ++ ([(ia.map h.read).getD []] ++ t)⟩ e a]
    exact ObjHeap.read_extend h _ a ha
  · intro a' hr
    have ha0 : h.objs.length
        < (ObjHeap.mk (h.objs ++ [(ia.map h.read).getD []])).objs.length := by simp
    obtain ⟨hd, _⟩ := syncRunH_addrBound ps ⟨h.objs ++ [(ia.map h.read).getD []]⟩
      h.objs.length a' ha0 hr
    rcases hd with e | le
    · exact e.le
    · exact le_trans (by simp) le
  · intro a₁ a₂ hr1 hr2
    have ha0 : h.objs.length
        < (ObjHeap.mk (h.objs ++ [(ia.map h.read).getD []])).objs.length := by simp
    obtain ⟨_, hlt⟩ := syncRunH_addrBound ps ⟨h.objs ++ [(ia.map h.read).getD []]⟩
      h.objs.length a₁ ha0 hr1
    have ha1 : (runPipelineH h ia ps).1.objs.length
        < (ObjHeap.mk ((runPipelineH h ia ps).1.objs
            ++ [(ia₂.map (runPipelineH h ia ps).1.read).getD []])).objs.length := by simp
    obtain ⟨hd2, _⟩ := syncRunH_addrBound ps₂
      ⟨(runPipelineH h ia ps).1.objs
          ++ [(ia₂.map (runPipelineH h ia ps).1.read).getD []]⟩
      (runPipelineH h ia ps).1.objs.length a₂ ha1 hr2
    have h2 : (runPipelineH h ia ps).1.objs.length ≤ a₂ := by
      rcases hd2 with e | le
      · exact e.le
      · exact le_trans (by simp) le
    exact Nat.ne_of_lt (lt_of_lt_of_le hlt h2)

/-- Witness for C8 at a concrete heap: one input object `{0: 1}` at address
0, one copying pass; the run leaves the input object intact and returns a
fresh address. -/
theorem pipeline_C8_witness :
    (runPipelineH ⟨[[(0, 1)]]⟩ (some 0) [totalPass (fun e => e)]).1.read 0
        = ObjHeap.read ⟨[[(0, 1)]]⟩ 0
    ∧ (1 : Nat) ≤ 2 :=
  ⟨(pipeline_C8_fresh_copy ⟨[[(0, 1)]]⟩ (some 0) (some 0)
      [totalPass (fun e => e)] []).2.1 0 (by decide),
   (pipeline_C8_fresh_copy ⟨[[(0, 1)]]⟩ (some 0) (some 0)
      [totalPass (fun e => e)] []).2.2.1 2 rfl⟩

/-! ### The heap runner computes the same values as the pure runner -/

/-- Read a heap run's result back as a value-level `RunResult`. -/
def mapRes (h : ObjHeap) : Except Err (Nat ⊕ Except Err Nat) → RunResult
  | .error e => .error e
  | .ok (.inl a) => .ok (.inl (h.read a))
  | .ok (.inr (.error e)) => .ok (.inr (.error e))
  | .ok (.inr (.ok a)) => .ok (.inr (.ok (h.read a)))

theorem asyncRunH_refines (ps : List NPass) :
    ∀ (h : ObjHeap) (a : Nat),
      ((asyncRunH h a ps).2).map (asyncRunH h a ps).1.read = asyncRun (h.read a) ps := by
  induction ps with
  | nil => intro h a; simp [asyncRunH, asyncRun, Except.map]
  | cons p rest ih =>
    intro h a
    cases hp : p (h.read a) with
    | error e => simp [asyncRunH, asyncRun, hp, Except.map]
    | ok out =>
      cases out with
      | imm o =>
        have hrec := ih ⟨h.objs ++ [mergeOut (h.read a) o]⟩ h.objs.length
        rw [show (ObjHeap.mk (h.objs ++ [mergeOut (h.read a) o])).read h.objs.length
            = mergeOut (h.read a) o from ObjHeap.read_alloc h _] at hrec
        simpa [asyncRunH, asyncRun, hp, ObjHeap.alloc] using hrec
      | thenable d =>
        cases d with
        | error e => simp [asyncRunH, asyncRun, hp, Except.map]
        | ok o =>
          have hrec := ih ⟨h.objs ++ [mergeOut (h.read a) o]⟩ h.objs.length
          rw [show (ObjHeap.mk (h.objs ++ [mergeOut (h.read a) o])).read h.objs.length
              = mergeOut (h.read a) o from ObjHeap.read_alloc h _] at hrec
          simpa [asyncRunH, asyncRun, hp, ObjHeap.alloc] using hrec

theorem syncRunH_refines (ps : List NPass) :
    ∀ (h : ObjHeap) (a : Nat),
      mapRes (syncRunH h a ps).1 (syncRunH h a ps).2 = syncRun (h.read a) ps := by
  induction ps with
  | nil => intro h a; simp [syncRunH, syncRun, mapRes]
  | cons p rest ih =>
    intro h a
    cases hp : p (h.read a) with
    | error e => simp [syncRunH, syncRun, hp, mapRes]
    | ok out =>
      cases out with
      | imm o =>
        have hrec := ih ⟨h.objs ++ [mergeOut (h.read a) o]⟩ h.objs.length
        rw [show (ObjHeap.mk (h.objs ++ [mergeOut (h.read a) o])).read h.objs.length
            = mergeOut (h.read a) o from ObjHeap.read_alloc h _] at hrec
        simpa [syncRunH, syncRun, hp, ObjHeap.alloc] using hrec
      | thenable d =>
        cases d with
        | error e => simp [syncRunH, syncRun, hp, mapRes]
        | ok o =>
          have hasync := asyncRunH_refines rest ⟨h.objs ++ [mergeOut (h.read a) o]⟩
            h.objs.length
          rw [show (ObjHeap.mk (h.objs ++ [mergeOut (h.read a) o])).read h.objs.length
              = mergeOut (h.read a) o from ObjHeap.read_alloc h _] at hasync
          cases hq : (asyncRunH ⟨h.objs ++ [mergeOut (h.read a) o]⟩ h.objs.length rest).2 with
          | error e =>
            rw [hq] at hasync
            simp only [Except.map] at hasync
            simp [syncRunH, syncRun, hp, ObjHeap.alloc, hq, mapRes, ← hasync]
          | ok a'' =>
            rw [hq] at hasync
            simp only [Except.map] at hasync
            simp [syncRunH, syncRun, hp, ObjHeap.alloc, hq, mapRes, ← hasync]

theorem runPipelineH_refines (h : ObjHeap) (ia : Option Nat) (ps : List NPass) :
    mapRes (runPipelineH h ia ps).1 (runPipelineH h ia ps).2
      = runPipeline ps (ia.map h.read) := by
  have hs := syncRunH_refines ps ⟨h.objs ++ [(ia.map h.read).getD []]⟩ h.objs.length
  rw [show (ObjHeap.mk (h.objs ++ [(ia.map h.read).getD []])).read h.objs.length
      = (ia.map h.read).getD [] from ObjHeap.read_alloc h _] at hs
  exact hs
